import Mathlib

set_option maxRecDepth 8000

/-!
# Verification of the embera core: `Embedding` metrics and `DWaveNetworkXTiling`

A shallow embedding of the two source modules of the repository:

* `embera/interfaces/embedding.py` — the `Embedding` value type: chain
  histograms, interaction/connectivity metrics, structural identity
  (`__key`/`__hash__`/`__eq__`) and the `quality_key` comparison operators;
* the preprocess tiling module — `DWaveNetworkXTiling` and `Tile`.

Modelling conventions:

* Python dicts are association lists that keep the insertion order of keys
  (as CPython dicts do); assignment to an existing key overwrites in place,
  assignment to a fresh key appends.
* Python `hash` on integers and on tuples of integers is modelled
  bit-exactly after CPython ≥ 3.8: the modular 2^61-1 hash for ints and the
  xxHash-style combiner for tuples (`pyHashInt`, `pyHashTuple`).
* Operations that can raise (`KeyError`, `IndexError`, division by zero,
  tuple-unpacking errors, the `ValueError` for an unsupported family) are
  modelled in `Except Unit` / `Option`.
* The external coordinate converter (`embera.dwave_coordinates`, not part
  of these sources) appears only as a pair of functions
  `to_nice : Q → Nice` / `from_nice : Nice → Q` passed to the tiling
  operations; the spec describes it as a bijection pair on canonical
  5-tuples `(layer, row, column, shore, index)`.
-/

namespace Embera

/-- Decidable equality of `Except` values, for evaluating the model at
concrete inputs. -/
instance {ε σ : Type} [DecidableEq ε] [DecidableEq σ] : DecidableEq (Except ε σ) := fun x y =>
  match x, y with
  | .error a, .error b =>
    if h : a = b then isTrue (congrArg Except.error h)
    else isFalse fun hh => h (Except.error.inj hh)
  | .error _, .ok _ => isFalse fun hh => Except.noConfusion hh
  | .ok _, .error _ => isFalse fun hh => Except.noConfusion hh
  | .ok a, .ok b =>
    if h : a = b then isTrue (congrArg Except.ok h)
    else isFalse fun hh => h (Except.ok.inj hh)

/-! ## Python dictionaries as insertion-ordered association lists -/

section PyDict

variable {κ β : Type} [DecidableEq κ]

/-- Read `d[k]`: the value stored at key `k`, if any. -/
def dictGet : List (κ × β) → κ → Option β
  | [], _ => none
  | p :: d, k => if p.1 = k then some p.2 else dictGet d k

/-- Python `d.get(k, dflt)`. -/
def dictGetD (d : List (κ × β)) (k : κ) (dflt : β) : β :=
  (dictGet d k).getD dflt

/-- Assignment `d[k] = v`: overwrite in place when the key is present (keeping its
position, as CPython dicts do), otherwise append a new entry. -/
def dictInsert : List (κ × β) → κ → β → List (κ × β)
  | [], k, v => [(k, v)]
  | p :: d, k, v => if p.1 = k then (k, v) :: d else p :: dictInsert d k v

/-- The histogram step `d[k] = 1 + d.get(k, 0)` used throughout the source. -/
def bump (d : List (κ × Nat)) (k : κ) : List (κ × Nat) :=
  dictInsert d k (1 + dictGetD d k 0)

theorem dictGet_dictInsert (d : List (κ × β)) (k k' : κ) (v : β) :
    dictGet (dictInsert d k v) k' = if k' = k then some v else dictGet d k' := by
  induction d with
  | nil =>
    by_cases h : k' = k
    · simp [dictInsert, dictGet, h]
    · simp [dictInsert, dictGet, h, Ne.symm h]
  | cons p d ih =>
    by_cases hp : p.1 = k
    · by_cases h : k' = k
      · simp [dictInsert, dictGet, hp, h]
      · have h1 : ¬(k = k') := Ne.symm h
        have h2 : ¬(p.1 = k') := by rw [hp]; exact h1
        simp [dictInsert, dictGet, hp, h, h1, h2]
    · by_cases hpk : p.1 = k'
      · have h1 : ¬(k' = k) := fun hh => hp (hpk.trans hh)
        simp [dictInsert, dictGet, hp, hpk, h1]
      · simp [dictInsert, dictGet, hp, hpk, ih]

theorem mem_dictInsert (d : List (κ × β)) (k : κ) (v : β) :
    ∀ p ∈ dictInsert d k v, p = (k, v) ∨ p ∈ d := by
  induction d with
  | nil =>
    intro p hp
    simpa [dictInsert] using hp
  | cons q d ih =>
    intro p hp
    by_cases hq : q.1 = k
    · simp only [dictInsert, hq, if_true, List.mem_cons] at hp
      rcases hp with h | h
      · exact Or.inl h
      · exact Or.inr (List.mem_cons_of_mem _ h)
    · simp only [dictInsert, hq, if_false, List.mem_cons] at hp
      rcases hp with h | h
      · subst h
        exact Or.inr (List.mem_cons_self _ _)
      · rcases ih p h with h' | h'
        · exact Or.inl h'
        · exact Or.inr (List.mem_cons_of_mem _ h')

theorem dictGetD_dictInsert (d : List (κ × β)) (k k' : κ) (v dflt : β) :
    dictGetD (dictInsert d k v) k' dflt = if k' = k then v else dictGetD d k' dflt := by
  unfold dictGetD
  rw [dictGet_dictInsert]
  by_cases h : k' = k <;> simp [h]

theorem dictGet_mem (d : List (κ × β)) (k : κ) (v : β) (h : dictGet d k = some v) :
    (k, v) ∈ d := by
  induction d with
  | nil => simp [dictGet] at h
  | cons p d ih =>
    obtain ⟨a, b⟩ := p
    by_cases hp : a = k
    · simp only [dictGet, hp, if_true] at h
      injection h with h
      subst hp
      subst h
      exact List.mem_cons_self _ _
    · simp only [dictGet, hp, if_false] at h
      exact List.mem_cons_of_mem _ (ih h)

theorem dictGet_bump (d : List (κ × Nat)) (k k' : κ) :
    dictGet (bump d k) k' =
      if k' = k then some (1 + dictGetD d k 0) else dictGet d k' := by
  unfold bump
  exact dictGet_dictInsert d k k' _

theorem dictGetD_bump (d : List (κ × Nat)) (k k' : κ) :
    dictGetD (bump d k) k' 0 =
      if k' = k then 1 + dictGetD d k 0 else dictGetD d k' 0 := by
  unfold dictGetD
  rw [dictGet_bump]
  by_cases h : k' = k <;> simp [h, dictGetD]

end PyDict

/-! ## CPython integer and tuple hashing (`hash`), bit-exact for Python ≥ 3.8 -/

section PyHash

/-- The Mersenne modulus `2^61 - 1` used by CPython's integer hash. -/
def pyModulus : Int := 2 ^ 61 - 1

/-- CPython `hash(n)` for an `int` `n`: reduce modulo `2^61 - 1`, keeping
the sign, and map a result of `-1` to `-2`. -/
def pyHashInt (n : Int) : Int :=
  if 0 ≤ n then n % pyModulus
  else
    let r := -((-n) % pyModulus)
    if r = -1 then -2 else r

/-- Reinterpret an integer as an unsigned 64-bit word (two's complement). -/
def toU64 (n : Int) : Nat := (n % (2 ^ 64 : Int)).toNat

/-- Reinterpret an unsigned 64-bit word as a signed 64-bit integer. -/
def ofU64 (u : Nat) : Int :=
  if u < 2 ^ 63 then (u : Int) else (u : Int) - 2 ^ 64

/-- Rotate a 64-bit word left by 31. -/
def rotl31 (a : Nat) : Nat := (a * 2 ^ 31 + a / 2 ^ 33) % 2 ^ 64

/-- xxHash prime 1, as used by CPython's tuple hash. -/
def xxPrime1 : Nat := 11400714785074694791

/-- xxHash prime 2. -/
def xxPrime2 : Nat := 14029467366897019727

/-- xxHash prime 5. -/
def xxPrime5 : Nat := 2870177450012600261

/-- CPython `hash(t)` for a tuple `t` of ints (the xxHash-based algorithm of
CPython ≥ 3.8): fold each element's `hash` into a 64-bit accumulator, mix in
the length, and map the reserved value `-1` to `1546275796`. -/
def pyHashTuple (items : List Int) : Int :=
  let acc := items.foldl
    (fun acc item =>
      let lane := toU64 (pyHashInt item)
      let a := (acc + lane * xxPrime2) % 2 ^ 64
      (rotl31 a * xxPrime1) % 2 ^ 64)
    xxPrime5
  let acc2 := (acc + Nat.xor items.length (Nat.xor xxPrime5 3527539)) % 2 ^ 64
  if acc2 = 2 ^ 64 - 1 then 1546275796 else ofU64 acc2

end PyHash

/-! ## `Embedding`: structural identity and quality-key comparisons

The Python `Embedding` is a `dict` from a variable to its chain, plus an
uninterpreted property bag.  For the identity/ordering operations the
variables and qubits are Python ints, so the value type is modelled as the
insertion-ordered item list. -/

/-- An `Embedding` value: the item list of the underlying dict
(variable ↦ chain), in insertion order. -/
def Embedding := List (Int × List Int)

namespace Embedding

/-- Method `chain_histogram()`: `hist[s] = 1 + hist.get(s, 0)` over the lengths of
the chains, in item order. -/
def chain_histogram (E : Embedding) : List (Nat × Nat) :=
  (E.map fun p => p.2.length).foldl bump []

/-- Python `sorted(hist.items(), reverse=True)` sorts pairs in descending
lexicographic order; this is that order. -/
def pairDesc (p q : Nat × Nat) : Prop :=
  q.1 < p.1 ∨ (q.1 = p.1 ∧ q.2 ≤ p.2)

instance : DecidableRel pairDesc := fun p q => by
  unfold pairDesc
  infer_instance

/-- Property `quality_key`: sort the histogram items in descending order and flatten
to `[len₁, count₁, len₂, count₂, …]`. -/
def quality_key (E : Embedding) : List Nat :=
  (List.insertionSort pairDesc (chain_histogram E)).flatMap fun p => [p.1, p.2]

/-- Property `total_qubits`: `sum(QK[i]*QK[i+1] for i in range(0, len(QK), 2))`,
with `range(0, n, 2)` modelled by `List.range'`. -/
def total_qubits (E : Embedding) : Nat :=
  let QK := quality_key E
  ((List.range' 0 ((QK.length + 1) / 2) 2).map fun i =>
    QK.getD i 0 * QK.getD (i + 1) 0).sum

/-- Method `__key`: per chain, hash the sorted list of member hashes; then hash the
tuple of per-chain hashes in item order. -/
def key (E : Embedding) : Int :=
  pyHashTuple (E.map fun p =>
    pyHashTuple (List.insertionSort (· ≤ ·) (p.2.map pyHashInt)))

/-- Method `__hash__`: `hash(self.__key())`. -/
def hashv (E : Embedding) : Int := pyHashInt (key E)

/-- Method `__eq__`: `self.__key() == other.__key()`. -/
def eqv (E F : Embedding) : Bool := key E == key F

/-- Python list comparison `xs < ys` on `quality_key`s. -/
def pyListLt : List Nat → List Nat → Bool
  | [], [] => false
  | [], _ :: _ => true
  | _ :: _, [] => false
  | a :: as, b :: bs =>
    if a < b then true else if b < a then false else pyListLt as bs

/-- Python list comparison `xs <= ys` on `quality_key`s. -/
def pyListLe : List Nat → List Nat → Bool
  | [], _ => true
  | _ :: _, [] => false
  | a :: as, b :: bs =>
    if a < b then true else if b < a then false else pyListLe as bs

/-- Method `__lt__`: `self.quality_key < other.quality_key`. -/
def lt (E F : Embedding) : Bool := pyListLt (quality_key E) (quality_key F)

/-- Method `__le__`: `self.quality_key <= other.quality_key`. -/
def le (E F : Embedding) : Bool := pyListLe (quality_key E) (quality_key F)

/-- Method `__gt__`: `self.quality_key > other.quality_key`. -/
def gt (E F : Embedding) : Bool := pyListLt (quality_key F) (quality_key E)

/-- Method `__ge__`: `self.quality_key >= other.quality_key`. -/
def ge (E F : Embedding) : Bool := pyListLe (quality_key F) (quality_key E)

/-! ### The `total_qubits` invariant (C3) -/

theorem mul_sum_bump (d : List (Nat × Nat)) (k : Nat) :
    ((bump d k).map fun p => p.1 * p.2).sum = k + (d.map fun p => p.1 * p.2).sum := by
  induction d with
  | nil => simp [bump, dictInsert, dictGetD, dictGet]
  | cons p d ih =>
    by_cases hp : p.1 = k
    · have hv : dictGetD (p :: d) k 0 = p.2 := by
        simp [dictGetD, dictGet, hp]
      simp only [bump, dictInsert, hp, if_true, hv, List.map_cons, List.sum_cons]
      subst hp
      ring
    · have hv : dictGetD (p :: d) k 0 = dictGetD d k 0 := by
        simp [dictGetD, dictGet, hp]
      simp only [bump, dictInsert, hp, if_false, hv, List.map_cons, List.sum_cons]
      have := ih
      simp only [bump] at this
      rw [this]
      ring

theorem mul_sum_foldl_bump (lens : List Nat) : ∀ d : List (Nat × Nat),
    ((lens.foldl bump d).map fun p => p.1 * p.2).sum
      = (d.map fun p => p.1 * p.2).sum + lens.sum := by
  induction lens with
  | nil => intro d; simp
  | cons s lens ih =>
    intro d
    simp only [List.foldl_cons, List.sum_cons]
    rw [ih, mul_sum_bump]
    ring

theorem chain_histogram_mul_sum (E : Embedding) :
    ((chain_histogram E).map fun p => p.1 * p.2).sum
      = (E.map fun p => p.2.length).sum := by
  unfold chain_histogram
  rw [mul_sum_foldl_bump]
  simp

/-- Sum of products of consecutive pairs, the recursive reading of the
`range(0, len(QK), 2)` summation of `total_qubits`. -/
def sumPairs : List Nat → Nat
  | s :: c :: rest => s * c + sumPairs rest
  | _ => 0

theorem sumPairs_flatMap (ps : List (Nat × Nat)) :
    sumPairs (ps.flatMap fun p => [p.1, p.2]) = (ps.map fun p => p.1 * p.2).sum := by
  induction ps with
  | nil => rfl
  | cons p ps ih =>
    simp only [List.flatMap_cons, List.cons_append, List.singleton_append,
      List.nil_append]
    have hstep : sumPairs (p.1 :: p.2 :: ps.flatMap fun p => [p.1, p.2])
        = p.1 * p.2 + sumPairs (ps.flatMap fun p => [p.1, p.2]) := rfl
    rw [hstep, ih]
    simp

theorem range'_step2_shift (n : Nat) : ∀ s : Nat,
    List.range' (s + 2) n 2 = (List.range' s n 2).map (· + 2) := by
  induction n with
  | zero => intro s; rfl
  | succ n ih =>
    intro s
    rw [List.range'_succ, List.range'_succ, List.map_cons, ih (s + 2)]

theorem tq_formula_eq_sumPairs (L : List Nat) :
    ((List.range' 0 ((L.length + 1) / 2) 2).map fun i =>
      L.getD i 0 * L.getD (i + 1) 0).sum = sumPairs L := by
  match L with
  | [] => rfl
  | [a] => simp [sumPairs, List.range'_succ]
  | a :: b :: L' =>
    have hlen : ((a :: b :: L').length + 1) / 2 = (L'.length + 1) / 2 + 1 := by
      simp only [List.length_cons]
      omega
    rw [hlen, List.range'_succ, List.map_cons, List.sum_cons]
    have hshift : List.range' (0 + 2) ((L'.length + 1) / 2) 2
        = (List.range' 0 ((L'.length + 1) / 2) 2).map (· + 2) :=
      range'_step2_shift _ 0
    simp only [Nat.zero_add] at hshift
    rw [hshift, List.map_map]
    have hfun : ((fun i => (a :: b :: L').getD i 0 * (a :: b :: L').getD (i + 1) 0) ∘ (· + 2))
        = fun i => L'.getD i 0 * L'.getD (i + 1) 0 := by
      funext i
      simp [List.getD_cons_succ]
    rw [hfun, tq_formula_eq_sumPairs L']
    simp [sumPairs]

/-- C3: for every `Embedding E`, `total_qubits(E)` — the sum of
`QK[i]*QK[i+1]` over consecutive pairs of `quality_key` — equals the sum of
`len(chain)` over all chains of `E`. -/
theorem C3_total_qubits (E : Embedding) :
    total_qubits E = (E.map fun p => p.2.length).sum := by
  unfold total_qubits
  rw [tq_formula_eq_sumPairs]
  unfold quality_key
  rw [sumPairs_flatMap]
  rw [((List.perm_insertionSort pairDesc (chain_histogram E)).map
    (fun p : Nat × Nat => p.1 * p.2)).sum_eq]
  exact chain_histogram_mul_sum E

/-! ### The `quality_key` comparison operators (C5) -/

theorem pyListLe_trans : ∀ l m n : List Nat,
    pyListLe l m = true → pyListLe m n = true → pyListLe l n = true := by
  intro l
  induction l with
  | nil => intro m n _ _; rfl
  | cons a as ih =>
    intro m n h1 h2
    cases m with
    | nil => simp [pyListLe] at h1
    | cons b bs =>
      cases n with
      | nil => simp [pyListLe] at h2
      | cons c cs =>
        simp only [pyListLe] at h1 h2 ⊢
        rcases Nat.lt_trichotomy a b with hab | hab | hab
        · rcases Nat.lt_trichotomy b c with hbc | hbc | hbc
          · simp [Nat.lt_trans hab hbc]
          · subst hbc; simp [hab]
          · simp [hbc, Nat.lt_asymm hbc] at h2
        · subst hab
          rw [if_neg (Nat.lt_irrefl a), if_neg (Nat.lt_irrefl a)] at h1
          rcases Nat.lt_trichotomy a c with hac | hac | hac
          · simp [hac]
          · subst hac
            rw [if_neg (Nat.lt_irrefl a), if_neg (Nat.lt_irrefl a)] at h2 ⊢
            exact ih bs cs h1 h2
          · simp [hac, Nat.lt_asymm hac] at h2
        · simp [hab, Nat.lt_asymm hab] at h1

theorem pyListLe_antisymm : ∀ l m : List Nat,
    pyListLe l m = true → pyListLe m l = true → l = m := by
  intro l
  induction l with
  | nil =>
    intro m h1 h2
    cases m with
    | nil => rfl
    | cons b bs => simp [pyListLe] at h2
  | cons a as ih =>
    intro m h1 h2
    cases m with
    | nil => simp [pyListLe] at h1
    | cons b bs =>
      simp only [pyListLe] at h1 h2
      rcases Nat.lt_trichotomy a b with hab | hab | hab
      · simp [hab, Nat.lt_asymm hab] at h2
      · subst hab
        rw [if_neg (Nat.lt_irrefl a), if_neg (Nat.lt_irrefl a)] at h1 h2
        rw [ih bs h1 h2]
      · simp [hab, Nat.lt_asymm hab] at h1

/-- C5 (amended): `__lt__`/`__le__`/`__gt__`/`__ge__` compare Embeddings by
lexicographic comparison of `quality_key`; the order is transitive, and
mutual `__le__` forces equal `quality_key`s (not embedding equality). -/
theorem C5_quality_key_order :
    (∀ E F : Embedding, le E F = true → le F E = true →
       quality_key E = quality_key F) ∧
    (∀ E F G : Embedding, le E F = true → le F G = true → le E G = true) := by
  constructor
  · intro E F h1 h2
    exact pyListLe_antisymm _ _ h1 h2
  · intro E F G h1 h2
    exact pyListLe_trans _ _ _ h1 h2

/-- A pair of embeddings with equal `quality_key` but different chains:
`{0: {0}}` and `{0: {1}}`. -/
def sampleLowA : Embedding := [(0, [0])]

/-- Embedding `{0: {1}}`, same shape as `sampleLowA` but a different qubit. -/
def sampleLowB : Embedding := [(0, [1])]

/-- C5 counterexample: `sampleLowA <= sampleLowB` and
`sampleLowB <= sampleLowA` both hold (equal `quality_key`s), yet the two
embeddings are not equal under `__eq__`, refuting the claim that mutual
`<=` makes them equal. -/
theorem C5_counterexample :
    le sampleLowA sampleLowB = true ∧ le sampleLowB sampleLowA = true ∧
      eqv sampleLowA sampleLowB = false := by decide

/-- Embeddings used to witness C5: single chains of sizes 1, 2 and 3. -/
def sampleSize1 : Embedding := [(0, [0])]

/-- Single chain of size 2. -/
def sampleSize2 : Embedding := [(0, [0, 1])]

/-- Single chain of size 3. -/
def sampleSize3 : Embedding := [(0, [0, 1, 2])]

/-- C5 witness: the amended order theorem applied at concrete embeddings. -/
theorem C5_witness :
    quality_key sampleLowA = quality_key sampleLowB ∧
      le sampleSize1 sampleSize3 = true := by
  constructor
  · exact C5_quality_key_order.1 sampleLowA sampleLowB (by decide) (by decide)
  · exact C5_quality_key_order.2 sampleSize1 sampleSize2 sampleSize3
      (by decide) (by decide)

/-! ### Structural identity (C2) -/

theorem sort_hash_perm_eq {c d : List Int} (h : c.Perm d) :
    List.insertionSort (· ≤ ·) (c.map pyHashInt)
      = List.insertionSort (· ≤ ·) (d.map pyHashInt) :=
  List.eq_of_perm_of_sorted
    ((List.perm_insertionSort _ _).trans
      ((h.map _).trans (List.perm_insertionSort _ _).symm))
    (List.sorted_insertionSort _ _) (List.sorted_insertionSort _ _)

/-- C2 (amended): `__eq__` and `__hash__` depend only on the stored sequence
of chains, each viewed up to permutation of its members: embeddings whose
item lists have pointwise-permuted chains (variable names free) are equal
and hash-equal. -/
theorem C2_structural_eq (E F : Embedding)
    (h : List.Forall₂ (fun p q : Int × List Int => p.2.Perm q.2) E F) :
    eqv E F = true ∧ hashv E = hashv F := by
  have hmap : (E.map fun p =>
        pyHashTuple (List.insertionSort (· ≤ ·) (p.2.map pyHashInt)))
      = F.map fun p =>
        pyHashTuple (List.insertionSort (· ≤ ·) (p.2.map pyHashInt)) := by
    induction h with
    | nil => rfl
    | cons hpq _ ih =>
      simp only [List.map_cons, ih, sort_hash_perm_eq hpq]
  have hkey : key E = key F := by
    unfold key
    rw [hmap]
  refine ⟨?_, ?_⟩
  · simp [eqv, hkey]
  · simp [hashv, hkey]

/-- Embedding `{0: {1,2}}`. -/
def samplePermA : Embedding := [(0, [1, 2])]

/-- Embedding `{5: {2,1}}`: the same single chain as `samplePermA`, under another
variable name and with its members stored in the other order. -/
def samplePermB : Embedding := [(5, [2, 1])]

/-- C2 witness: the amended structural-identity theorem applied at concrete
embeddings whose single chains are permutations of each other. -/
theorem C2_witness : eqv samplePermA samplePermB = true ∧
    hashv samplePermA = hashv samplePermB :=
  C2_structural_eq samplePermA samplePermB (by decide)

/-- Embedding `{0: {1}, 1: {2}}`. -/
def sampleSwapA : Embedding := [(0, [1]), (1, [2])]

/-- Embedding `{0: {2}, 1: {1}}`: the same multiset of chains as `sampleSwapA`, stored
in the other order. -/
def sampleSwapB : Embedding := [(0, [2]), (1, [1])]

/-- Embedding `{0: {1}}`. -/
def sampleCollA : Embedding := [(0, [1])]

/-- Embedding `{0: {2^61}}`: a different qubit whose CPython hash collides with
`hash(1)` (both are 1 modulo 2^61-1). -/
def sampleCollB : Embedding := [(0, [2 ^ 61])]

/-- C2 counterexample: two embeddings with the same multiset of chains but a
different storage order are NOT `__eq__`-equal (the per-chain hashes are
combined in item order, not as a multiset), and two embeddings differing in
the qubit membership of a chain ARE `__eq__`-equal when the qubit hashes
collide modulo 2^61-1 — both directions of the claim fail. -/
theorem C2_counterexample :
    eqv sampleSwapA sampleSwapB = false ∧ eqv sampleCollA sampleCollB = true := by
  decide

/-! ### Interaction and connectivity metrics (C4, C6, C10)

These methods are label-generic in Python, so they are modelled over an
arbitrary vertex/qubit type `α` with decidable equality.  The embedding
argument is again the item list of the variable ↦ chain dict. -/

section Metrics

variable {α : Type} [DecidableEq α]

/-- The adjacency-building loop of `interactions`: for each target edge
`(s,t)`, skip self-loops, then `target_adj[s] = [t] + target_adj.get(s,[])`
and `target_adj[t] = [s] + target_adj.get(t,[])`. -/
def buildAdj : List (α × α) → List (α × List α) → List (α × List α)
  | [], adj => adj
  | (s, t) :: rest, adj =>
    if s = t then buildAdj rest adj
    else
      let adj1 := dictInsert adj s (t :: dictGetD adj s [])
      buildAdj rest (dictInsert adj1 t (s :: dictGetD adj1 t []))

/-- The complete `target_adj` dict built by `interactions`. -/
def target_adj (target_edgelist : List (α × α)) : List (α × List α) :=
  buildAdj target_edgelist []

/-- Inner loop `for t in self[v]: if t in target_adj[s]: append (s,t)`;
`target_adj[s]` raises `KeyError` when `s` has no adjacency entry. -/
def interLoopT (adj : List (α × List α)) (s : α) :
    List α → List (α × α) → Except Unit (List (α × α))
  | [], acc => .ok acc
  | t :: ts, acc =>
    match dictGet adj s with
    | none => .error ()
    | some ns => interLoopT adj s ts (if t ∈ ns then acc ++ [(s, t)] else acc)

/-- Outer loop `for s in self[u]`: each iteration evaluates `self[v]`
(raising `KeyError` when `v` is not a variable of the embedding) and runs
the inner loop. -/
def interLoopS (emb adj : List (α × List α)) (v : α) :
    List α → List (α × α) → Except Unit (List (α × α))
  | [], acc => .ok acc
  | s :: ss, acc =>
    match dictGet emb v with
    | none => .error ()
    | some cv =>
      match interLoopT adj s cv acc with
      | .error e => .error e
      | .ok acc2 => interLoopS emb adj v ss acc2

/-- The main loop of `interactions` over the source edge list: skip
self-loops, evaluate `self[u]`, collect the edge interactions and store
them under key `(u,v)`. -/
def interGo (emb adj : List (α × List α)) :
    List (α × α) → List ((α × α) × List (α × α)) →
      Except Unit (List ((α × α) × List (α × α)))
  | [], acc => .ok acc
  | (u, v) :: rest, acc =>
    if u = v then interGo emb adj rest acc
    else
      match dictGet emb u with
      | none => .error ()
      | some cu =>
        match interLoopS emb adj v cu [] with
        | .error e => .error e
        | .ok l => interGo emb adj rest (dictInsert acc (u, v) l)

/-- Method `interactions(source_edgelist, target_edgelist)`. -/
def interactions (emb : List (α × List α)) (source_edgelist target_edgelist : List (α × α)) :
    Except Unit (List ((α × α) × List (α × α))) :=
  interGo emb (target_adj target_edgelist) source_edgelist []

/-- Inner loop of `connections`: for each interaction `(s,t)` of a source
edge `(u,v)`, prepend `(u,v)` to `connections[s]` and `(v,u)` to
`connections[t]`. -/
def connInner (u v : α) : List (α × α) → List (α × List (α × α)) → List (α × List (α × α))
  | [], cs => cs
  | (s, t) :: more, cs =>
    let cs1 := dictInsert cs s ((u, v) :: dictGetD cs s [])
    connInner u v more (dictInsert cs1 t ((v, u) :: dictGetD cs1 t []))

/-- Outer loop of `connections` over the interaction items. -/
def connGo : List ((α × α) × List (α × α)) → List (α × List (α × α)) → List (α × List (α × α))
  | [], cs => cs
  | ((u, v), ei) :: rest, cs => connGo rest (connInner u v ei cs)

/-- Method `connections(source_edgelist, target_edgelist)`. -/
def connections (emb : List (α × List α)) (source_edgelist target_edgelist : List (α × α)) :
    Except Unit (List (α × List (α × α))) :=
  match interactions emb source_edgelist target_edgelist with
  | .error e => .error e
  | .ok m => .ok (connGo m [])

/-- The `source_degree` loop of `connectivity_histogram`: skip self-loops
and bump both endpoints. -/
def degreeGo : List (α × α) → List (α × Nat) → List (α × Nat)
  | [], d => d
  | (u, v) :: rest, d =>
    if u = v then degreeGo rest d else degreeGo rest (bump (bump d u) v)

/-- The complete `source_degree` dict. -/
def source_degree (source_edgelist : List (α × α)) : List (α × Nat) :=
  degreeGo source_edgelist []

/-- The histogram loop of `connectivity_histogram`: `u,v = edges[0]`
(`IndexError` on an empty list), `source_degree[u]` (`KeyError` on a
missing key), `len(set(edges))/source_degree[u]` (division by zero when
the degree is 0), bucket by the exact rational. -/
def connHistGo (sd : List (α × Nat)) :
    List (α × List (α × α)) → List (ℚ × Nat) → Except Unit (List (ℚ × Nat))
  | [], hist => .ok hist
  | (_, edges) :: rest, hist =>
    match edges with
    | [] => .error ()
    | e :: _ =>
      match dictGet sd e.1 with
      | none => .error ()
      | some dv =>
        if dv = 0 then .error ()
        else connHistGo sd rest (bump hist ((edges.dedup.length : ℚ) / (dv : ℚ)))

/-- Method `connectivity_histogram(source_edgelist, target_edgelist)`. -/
def connectivity_histogram (emb : List (α × List α))
    (source_edgelist target_edgelist : List (α × α)) : Except Unit (List (ℚ × Nat)) :=
  match connections emb source_edgelist target_edgelist with
  | .error e => .error e
  | .ok cs => connHistGo (source_degree source_edgelist) cs []

/-- The connectivity value the histogram loop computes for one
`connections` item, when its lookups succeed: `len(set(edges))` divided by
the source degree of the first listed logical edge's first endpoint. -/
def connOf (sd : List (α × Nat)) (p : α × List (α × α)) : Option ℚ :=
  match p.2 with
  | [] => none
  | e :: _ => (dictGet sd e.1).map fun dv => ((p.2.dedup.length : ℚ) / (dv : ℚ))

theorem mem_getD_buildAdj (L : List (α × α)) : ∀ (adj : List (α × List α)) (s t : α),
    t ∈ dictGetD (buildAdj L adj) s [] ↔
      t ∈ dictGetD adj s [] ∨ (s ≠ t ∧ ((s, t) ∈ L ∨ (t, s) ∈ L)) := by
  induction L with
  | nil =>
    intro adj s t
    simp [buildAdj]
  | cons e L ih =>
    obtain ⟨a, b⟩ := e
    intro adj s t
    by_cases hab : a = b
    · subst hab
      rw [show buildAdj ((a, a) :: L) adj = buildAdj L adj from by simp [buildAdj]]
      rw [ih adj s t]
      constructor
      · rintro (h | ⟨hst, h | h⟩)
        · exact Or.inl h
        · exact Or.inr ⟨hst, Or.inl (List.mem_cons_of_mem _ h)⟩
        · exact Or.inr ⟨hst, Or.inr (List.mem_cons_of_mem _ h)⟩
      · rintro (h | ⟨hst, h | h⟩)
        · exact Or.inl h
        · rcases List.mem_cons.mp h with h' | h'
          · rw [Prod.mk.injEq] at h'
            exact absurd (h'.1.trans h'.2.symm) hst
          · exact Or.inr ⟨hst, Or.inl h'⟩
        · rcases List.mem_cons.mp h with h' | h'
          · rw [Prod.mk.injEq] at h'
            exact absurd (h'.2.trans h'.1.symm) hst
          · exact Or.inr ⟨hst, Or.inr h'⟩
    · rw [show buildAdj ((a, b) :: L) adj
          = buildAdj L (dictInsert (dictInsert adj a (b :: dictGetD adj a []))
              b (a :: dictGetD (dictInsert adj a (b :: dictGetD adj a [])) b []))
        from by simp [buildAdj, hab]]
      rw [ih _ s t]
      have hg1 : ∀ x, dictGetD (dictInsert adj a (b :: dictGetD adj a [])) x []
          = if x = a then b :: dictGetD adj a [] else dictGetD adj x [] := fun x =>
        dictGetD_dictInsert adj a x _ []
      have hg1b : dictGetD (dictInsert adj a (b :: dictGetD adj a [])) b []
          = dictGetD adj b [] := by
        rw [hg1, if_neg (Ne.symm hab)]
      have hg2 : ∀ x, dictGetD (dictInsert (dictInsert adj a (b :: dictGetD adj a []))
            b (a :: dictGetD (dictInsert adj a (b :: dictGetD adj a [])) b [])) x []
          = if x = b then a :: dictGetD adj b []
            else if x = a then b :: dictGetD adj a [] else dictGetD adj x [] := by
        intro x
        rw [dictGetD_dictInsert, hg1b, hg1]
      constructor
      · rintro (h | ⟨hst, h | h⟩)
        · rw [hg2] at h
          by_cases hsb : s = b
          · rw [if_pos hsb] at h
            rcases List.mem_cons.mp h with h' | h'
            · subst h'
              refine Or.inr ⟨by rw [hsb]; exact Ne.symm hab, Or.inr ?_⟩
              rw [hsb]
              exact List.mem_cons_self _ _
            · exact Or.inl (by rw [hsb]; exact h')
          · rw [if_neg hsb] at h
            by_cases hsa : s = a
            · rw [if_pos hsa] at h
              rcases List.mem_cons.mp h with h' | h'
              · subst h'
                refine Or.inr ⟨by rw [hsa]; exact hab, Or.inl ?_⟩
                rw [hsa]
                exact List.mem_cons_self _ _
              · exact Or.inl (by rw [hsa]; exact h')
            · rw [if_neg hsa] at h
              exact Or.inl h
        · exact Or.inr ⟨hst, Or.inl (List.mem_cons_of_mem _ h)⟩
        · exact Or.inr ⟨hst, Or.inr (List.mem_cons_of_mem _ h)⟩
      · rintro (h | ⟨hst, h | h⟩)
        · left
          rw [hg2]
          by_cases hsb : s = b
          · rw [if_pos hsb]
            exact List.mem_cons_of_mem _ (by rw [← hsb]; exact h)
          · rw [if_neg hsb]
            by_cases hsa : s = a
            · rw [if_pos hsa]
              exact List.mem_cons_of_mem _ (by rw [← hsa]; exact h)
            · rw [if_neg hsa]
              exact h
        · rcases List.mem_cons.mp h with h' | h'
          · rw [Prod.mk.injEq] at h'
            obtain ⟨rfl, rfl⟩ := h'
            left
            rw [hg2, if_neg hab, if_pos rfl]
            exact List.mem_cons_self _ _
          · exact Or.inr ⟨hst, Or.inl h'⟩
        · rcases List.mem_cons.mp h with h' | h'
          · rw [Prod.mk.injEq] at h'
            obtain ⟨rfl, rfl⟩ := h'
            left
            rw [hg2, if_pos rfl]
            exact List.mem_cons_self _ _
          · exact Or.inr ⟨hst, Or.inr h'⟩

theorem interLoopT_ok (adj : List (α × List α)) (s : α) :
    ∀ (cv : List α) (acc l : List (α × α)), interLoopT adj s cv acc = .ok l →
      l = acc ++ (cv.filter fun t => decide (t ∈ dictGetD adj s [])).map fun t => (s, t) := by
  intro cv
  induction cv with
  | nil =>
    intro acc l h
    injection h with h
    simp [h.symm]
  | cons t ts ih =>
    intro acc l h
    simp only [interLoopT] at h
    cases hadj : dictGet adj s with
    | none =>
      rw [hadj] at h
      exact absurd h (by simp)
    | some ns =>
      rw [hadj] at h
      have hgd : dictGetD adj s [] = ns := by simp [dictGetD, hadj]
      have hrec := ih _ _ h
      rw [hgd] at hrec ⊢
      by_cases hm : t ∈ ns
      · simp only [hm, if_true] at hrec
        rw [hrec, List.filter_cons, if_pos (by simpa using hm)]
        simp [List.append_assoc]
      · simp only [hm, if_false] at hrec
        rw [hrec, List.filter_cons, if_neg (by simpa using hm)]

theorem interLoopS_ok (emb adj : List (α × List α)) (v : α) :
    ∀ (cu : List α) (acc l : List (α × α)), interLoopS emb adj v cu acc = .ok l →
      ∀ p : α × α, p ∈ l ↔ p ∈ acc ∨ (p.1 ∈ cu ∧ ∃ cv, dictGet emb v = some cv ∧
        p.2 ∈ cv ∧ p.2 ∈ dictGetD adj p.1 []) := by
  intro cu
  induction cu with
  | nil =>
    intro acc l h p
    injection h with h
    simp [h]
  | cons s ss ih =>
    intro acc l h p
    simp only [interLoopS] at h
    split at h
    · exact absurd h (by simp)
    · rename_i cv hv
      split at h
      · exact absurd h (by simp)
      · rename_i acc2 ht
        have hacc2 := interLoopT_ok adj s cv acc acc2 ht
        rw [ih acc2 l h p, hacc2, List.mem_append]
        have hmap : (p ∈ (cv.filter fun t => decide (t ∈ dictGetD adj s [])).map
            fun t => (s, t)) ↔ p.1 = s ∧ p.2 ∈ cv ∧ p.2 ∈ dictGetD adj p.1 [] := by
          simp only [List.mem_map, List.mem_filter, decide_eq_true_eq]
          constructor
          · rintro ⟨t, ⟨htcv, htadj⟩, hpt⟩
            rw [← hpt]
            exact ⟨rfl, htcv, htadj⟩
          · rintro ⟨h1, h2, h3⟩
            refine ⟨p.2, ⟨h2, by rw [← h1]; exact h3⟩, ?_⟩
            rw [← h1]
        rw [hmap]
        simp only [List.mem_cons, hv, Option.some.injEq]
        constructor
        · rintro ((h' | ⟨h1, h2, h3⟩) | h')
          · exact Or.inl h'
          · exact Or.inr ⟨Or.inl h1, cv, rfl, h2, h3⟩
          · rcases h' with ⟨hss, cv', hcv', h2, h3⟩
            exact Or.inr ⟨Or.inr hss, cv', hcv', h2, h3⟩
        · rintro (h' | ⟨h1 | h1, cv', hcv', h2, h3⟩)
          · exact Or.inl (Or.inl h')
          · exact Or.inl (Or.inr ⟨h1, by rw [hcv']; exact h2, h3⟩)
          · exact Or.inr ⟨h1, cv', hcv', h2, h3⟩

/-- What the `interactions` loop stores under a key `(u,v)`: the source edge
is not a self-loop, and its interaction list holds exactly the pairs `(s,t)`
with `s` in `chain(u)`, `t` in `chain(v)` and `t` adjacent to `s`. -/
def GoodEntry (emb adj : List (α × List α)) (u v : α) (l : List (α × α)) : Prop :=
  u ≠ v ∧ ∀ s t : α, ((s, t) ∈ l ↔
    (∃ cu, dictGet emb u = some cu ∧ s ∈ cu) ∧
    (∃ cv, dictGet emb v = some cv ∧ t ∈ cv) ∧ t ∈ dictGetD adj s [])

theorem interGo_ok (emb adj : List (α × List α)) :
    ∀ (src : List (α × α)) (acc m : List ((α × α) × List (α × α))),
      interGo emb adj src acc = .ok m →
      (∀ u v l, dictGet acc (u, v) = some l → GoodEntry emb adj u v l) →
      (∀ u v l, dictGet m (u, v) = some l → GoodEntry emb adj u v l) ∧
      (∀ u v, (u, v) ∈ src → u ≠ v → ∃ l, dictGet m (u, v) = some l) ∧
      (∀ u v, (∃ l, dictGet acc (u, v) = some l) → ∃ l', dictGet m (u, v) = some l') := by
  intro src
  induction src with
  | nil =>
    intro acc m h hacc
    injection h with h
    subst h
    exact ⟨hacc, by intro u v hmem; simp at hmem, fun u v h => h⟩
  | cons e src ih =>
    obtain ⟨u, v⟩ := e
    intro acc m h hacc
    simp only [interGo] at h
    by_cases huv : u = v
    · rw [if_pos huv] at h
      obtain ⟨h1, h2, h3⟩ := ih acc m h hacc
      refine ⟨h1, ?_, h3⟩
      intro u' v' hmem hne
      rcases List.mem_cons.mp hmem with he | he
      · rw [Prod.mk.injEq] at he
        exact absurd (he.1.trans (huv.trans he.2.symm)) hne
      · exact h2 u' v' he hne
    · rw [if_neg huv] at h
      split at h
      · exact absurd h (by simp)
      · rename_i cu hcu
        split at h
        · exact absurd h (by simp)
        · rename_i l hls
          have hGE : GoodEntry emb adj u v l := by
            refine ⟨huv, ?_⟩
            intro s t
            have hch := interLoopS_ok emb adj v cu [] l hls (s, t)
            simp only [List.not_mem_nil, false_or] at hch
            rw [hch]
            constructor
            · rintro ⟨hs, cv, hcv, htcv, hadj⟩
              exact ⟨⟨cu, hcu, hs⟩, ⟨cv, hcv, htcv⟩, hadj⟩
            · rintro ⟨⟨cu', hcu', hs⟩, ⟨cv, hcv, htcv⟩, hadj⟩
              rw [hcu] at hcu'
              injection hcu' with hcu'
              subst hcu'
              exact ⟨hs, cv, hcv, htcv, hadj⟩
          have hacc' : ∀ u' v' l', dictGet (dictInsert acc (u, v) l) (u', v') = some l' →
              GoodEntry emb adj u' v' l' := by
            intro u' v' l' hget
            rw [dictGet_dictInsert] at hget
            by_cases hk : (u', v') = (u, v)
            · rw [if_pos hk] at hget
              injection hget with hget
              rw [Prod.mk.injEq] at hk
              obtain ⟨rfl, rfl⟩ := hk
              rw [← hget]
              exact hGE
            · rw [if_neg hk] at hget
              exact hacc u' v' l' hget
          obtain ⟨h1, h2, h3⟩ := ih _ m h hacc'
          refine ⟨h1, ?_, ?_⟩
          · intro u' v' hmem hne
            rcases List.mem_cons.mp hmem with he | he
            · rw [Prod.mk.injEq] at he
              obtain ⟨rfl, rfl⟩ := he
              exact h3 u' v' ⟨l, by rw [dictGet_dictInsert, if_pos rfl]⟩
            · exact h2 u' v' he hne
          · intro u' v' hex
            obtain ⟨l', hl'⟩ := hex
            apply h3
            rw [dictGet_dictInsert]
            by_cases hk : (u', v') = (u, v)
            · exact ⟨l, by rw [if_pos hk]⟩
            · exact ⟨l', by rw [if_neg hk]; exact hl'⟩

theorem interGo_mem (emb adj : List (α × List α)) :
    ∀ (src : List (α × α)) (acc m : List ((α × α) × List (α × α))),
      interGo emb adj src acc = .ok m →
      ∀ q ∈ m, q ∈ acc ∨ (q.1 ∈ src ∧ q.1.1 ≠ q.1.2) := by
  intro src
  induction src with
  | nil =>
    intro acc m h q hq
    injection h with h
    subst h
    exact Or.inl hq
  | cons e src ih =>
    obtain ⟨u, v⟩ := e
    intro acc m h q hq
    simp only [interGo] at h
    by_cases huv : u = v
    · rw [if_pos huv] at h
      rcases ih acc m h q hq with h' | ⟨h1, h2⟩
      · exact Or.inl h'
      · exact Or.inr ⟨List.mem_cons_of_mem _ h1, h2⟩
    · rw [if_neg huv] at h
      split at h
      · exact absurd h (by simp)
      · rename_i cu hcu
        split at h
        · exact absurd h (by simp)
        · rename_i l hls
          rcases ih _ m h q hq with h' | ⟨h1, h2⟩
          · rcases mem_dictInsert _ _ _ q h' with h'' | h''
            · subst h''
              exact Or.inr ⟨List.mem_cons_self _ _, huv⟩
            · exact Or.inl h''
          · exact Or.inr ⟨List.mem_cons_of_mem _ h1, h2⟩

/-- C4: for every embedding and edge lists on which `interactions` raises no
`KeyError`, the result maps each non-self-loop source edge `(u,v)` to a
key, and the list stored at any key `(u,v)` holds exactly the pairs `(s,t)`
with `s` in `chain(u)`, `t` in `chain(v)`, and `(s,t)` an edge of the
target list taken undirected; self-loop source edges produce no key and
self-loop target edges produce no pair (`s ≠ t` always). -/
theorem C4_interactions (emb : List (α × List α)) (src tgt : List (α × α))
    (m : List ((α × α) × List (α × α))) (h : interactions emb src tgt = .ok m) :
    (∀ u v, (u, v) ∈ src → u ≠ v → ∃ l, dictGet m (u, v) = some l) ∧
    (∀ u v l, dictGet m (u, v) = some l → u ≠ v ∧ ∀ s t : α,
      ((s, t) ∈ l ↔ (∃ cu, dictGet emb u = some cu ∧ s ∈ cu) ∧
        (∃ cv, dictGet emb v = some cv ∧ t ∈ cv) ∧
        s ≠ t ∧ ((s, t) ∈ tgt ∨ (t, s) ∈ tgt))) := by
  unfold interactions at h
  obtain ⟨h1, h2, _h3⟩ := interGo_ok emb (target_adj tgt) src [] m h
    (by intro u v l hget; simp [dictGet] at hget)
  refine ⟨h2, ?_⟩
  intro u v l hget
  obtain ⟨hne, hiff⟩ := h1 u v l hget
  refine ⟨hne, ?_⟩
  intro s t
  rw [hiff s t]
  have hadj : t ∈ dictGetD (target_adj tgt) s [] ↔
      s ≠ t ∧ ((s, t) ∈ tgt ∨ (t, s) ∈ tgt) := by
    unfold target_adj
    rw [mem_getD_buildAdj]
    simp [dictGetD, dictGet]
  rw [hadj]

theorem prependEntry_inv (P : α × α → Prop) (cs : List (α × List (α × α))) (x : α)
    (y : α × α) (hy : P y) (h : ∀ p ∈ cs, p.2 ≠ [] ∧ ∀ e ∈ p.2, P e) :
    ∀ p ∈ dictInsert cs x (y :: dictGetD cs x []), p.2 ≠ [] ∧ ∀ e ∈ p.2, P e := by
  intro p hp
  rcases mem_dictInsert _ _ _ p hp with h1 | h1
  · subst h1
    refine ⟨by simp, ?_⟩
    intro e he
    rcases List.mem_cons.mp he with he | he
    · exact he ▸ hy
    · cases hg : dictGet cs x with
      | none =>
        rw [show dictGetD cs x [] = [] from by simp [dictGetD, hg]] at he
        simp at he
      | some lx =>
        refine (h (x, lx) (dictGet_mem cs x lx hg)).2 e ?_
        simpa [dictGetD, hg] using he
  · exact h p h1

theorem connInner_inv (P : α × α → Prop) (u v : α) (hP1 : P (u, v)) (hP2 : P (v, u)) :
    ∀ (ei : List (α × α)) (cs : List (α × List (α × α))),
      (∀ p ∈ cs, p.2 ≠ [] ∧ ∀ e ∈ p.2, P e) →
      ∀ p ∈ connInner u v ei cs, p.2 ≠ [] ∧ ∀ e ∈ p.2, P e := by
  intro ei
  induction ei with
  | nil =>
    intro cs h
    simpa [connInner] using h
  | cons st more ih =>
    obtain ⟨s, t⟩ := st
    intro cs h
    exact ih _ (prependEntry_inv P _ t (v, u) hP2 (prependEntry_inv P cs s (u, v) hP1 h))

theorem connGo_inv (P : α × α → Prop) :
    ∀ (m : List ((α × α) × List (α × α))) (cs : List (α × List (α × α))),
      (∀ q ∈ m, P q.1 ∧ P (q.1.2, q.1.1)) →
      (∀ p ∈ cs, p.2 ≠ [] ∧ ∀ e ∈ p.2, P e) →
      ∀ p ∈ connGo m cs, p.2 ≠ [] ∧ ∀ e ∈ p.2, P e := by
  intro m
  induction m with
  | nil =>
    intro cs _ h
    simpa [connGo] using h
  | cons q rest ih =>
    obtain ⟨⟨u, v⟩, ei⟩ := q
    intro cs hm h
    have hq := hm ((u, v), ei) (List.mem_cons_self _ _)
    exact ih _ (fun q' hq' => hm q' (List.mem_cons_of_mem _ hq'))
      (connInner_inv P u v hq.1 hq.2 ei cs h)

theorem bump_pos_preserve (d : List (α × Nat)) (k x : α)
    (h : ∃ dv, dictGet d x = some dv ∧ 1 ≤ dv) :
    ∃ dv, dictGet (bump d k) x = some dv ∧ 1 ≤ dv := by
  rw [dictGet_bump]
  by_cases hx : x = k
  · exact ⟨1 + dictGetD d k 0, by rw [if_pos hx], by omega⟩
  · rw [if_neg hx]
    exact h

theorem bump_pos_self (d : List (α × Nat)) (k : α) :
    ∃ dv, dictGet (bump d k) k = some dv ∧ 1 ≤ dv := by
  rw [dictGet_bump, if_pos rfl]
  exact ⟨1 + dictGetD d k 0, rfl, by omega⟩

theorem degreeGo_preserve : ∀ (src : List (α × α)) (d : List (α × Nat)) (x : α),
    (∃ dv, dictGet d x = some dv ∧ 1 ≤ dv) →
    ∃ dv, dictGet (degreeGo src d) x = some dv ∧ 1 ≤ dv := by
  intro src
  induction src with
  | nil =>
    intro d x h
    simpa [degreeGo] using h
  | cons e rest ih =>
    obtain ⟨u, v⟩ := e
    intro d x h
    by_cases huv : u = v
    · rw [show degreeGo ((u, v) :: rest) d = degreeGo rest d from by
        simp [degreeGo, huv]]
      exact ih d x h
    · rw [show degreeGo ((u, v) :: rest) d = degreeGo rest (bump (bump d u) v) from by
        simp [degreeGo, huv]]
      exact ih _ x (bump_pos_preserve _ v x (bump_pos_preserve _ u x h))

theorem degreeGo_hit : ∀ (src : List (α × α)) (d : List (α × Nat)) (u v : α),
    (u, v) ∈ src → u ≠ v →
    (∃ dv, dictGet (degreeGo src d) u = some dv ∧ 1 ≤ dv) ∧
    (∃ dv, dictGet (degreeGo src d) v = some dv ∧ 1 ≤ dv) := by
  intro src
  induction src with
  | nil =>
    intro d u v h
    simp at h
  | cons e rest ih =>
    obtain ⟨a, b⟩ := e
    intro d u v hmem hne
    rcases List.mem_cons.mp hmem with he | he
    · rw [Prod.mk.injEq] at he
      obtain ⟨rfl, rfl⟩ := he
      rw [show degreeGo ((u, v) :: rest) d = degreeGo rest (bump (bump d u) v) from by
        simp [degreeGo, hne]]
      constructor
      · exact degreeGo_preserve rest _ u (bump_pos_preserve _ v u (bump_pos_self d u))
      · exact degreeGo_preserve rest _ v (bump_pos_self (bump d u) v)
    · by_cases hab : a = b
      · rw [show degreeGo ((a, b) :: rest) d = degreeGo rest d from by
          simp [degreeGo, hab]]
        exact ih d u v he hne
      · rw [show degreeGo ((a, b) :: rest) d = degreeGo rest (bump (bump d a) b) from by
          simp [degreeGo, hab]]
        exact ih _ u v he hne

theorem connHistGo_ok (sd : List (α × Nat)) :
    ∀ (cs : List (α × List (α × α))) (hist : List (ℚ × Nat)),
      (∀ p ∈ cs, ∃ e es dv, p.2 = e :: es ∧ dictGet sd e.1 = some dv ∧ 1 ≤ dv) →
      ∃ h, connHistGo sd cs hist = .ok h := by
  intro cs
  induction cs with
  | nil =>
    intro hist _
    exact ⟨hist, rfl⟩
  | cons p rest ih =>
    obtain ⟨x, edges⟩ := p
    intro hist hgood
    obtain ⟨e, es, dv, he, hget, hdv⟩ := hgood (x, edges) (List.mem_cons_self _ _)
    simp only at he
    subst he
    simp only [connHistGo]
    rw [hget]
    dsimp only
    rw [if_neg (by omega : ¬ dv = 0)]
    exact ih _ fun q hq => hgood q (List.mem_cons_of_mem _ hq)

theorem connHistGo_count (sd : List (α × Nat)) :
    ∀ (cs : List (α × List (α × α))) (hist h : List (ℚ × Nat)),
      connHistGo sd cs hist = .ok h → ∀ r : ℚ,
      dictGetD h r 0 = dictGetD hist r 0
        + cs.countP (fun p => connOf sd p == some r) := by
  intro cs
  induction cs with
  | nil =>
    intro hist h hh r
    injection hh with hh
    subst hh
    simp
  | cons p rest ih =>
    obtain ⟨x, edges⟩ := p
    intro hist h hh r
    cases edges with
    | nil => simp [connHistGo] at hh
    | cons e es =>
      simp only [connHistGo] at hh
      cases hget : dictGet sd e.1 with
      | none =>
        rw [hget] at hh
        exact absurd hh (by simp)
      | some dv =>
        rw [hget] at hh
        dsimp only at hh
        by_cases hdv : dv = 0
        · rw [if_pos hdv] at hh
          exact absurd hh (by simp)
        · rw [if_neg hdv] at hh
          rw [ih _ h hh r, dictGetD_bump]
          have hconn : connOf sd (x, e :: es)
              = some (((e :: es).dedup.length : ℚ) / (dv : ℚ)) := by
            simp [connOf, hget]
          by_cases hr : r = ((e :: es).dedup.length : ℚ) / (dv : ℚ)
          · subst hr
            rw [if_pos rfl, List.countP_cons_of_pos _ _ (by rw [hconn]; exact beq_self_eq_true _)]
            omega
          · have hb : (connOf sd (x, e :: es) == some r) = false := by
              rw [hconn]
              exact beq_eq_false_iff_ne.mpr fun hc => hr (Option.some.inj hc).symm
            rw [if_neg hr, List.countP_cons_of_neg _ _ (by simp [hb])]

/-- C10: whenever `connections` succeeds, every stored per-qubit list is
nonempty and the first listed logical edge's first endpoint has a
`source_degree` entry of at least 1, so `connectivity_histogram` neither
hits a missing key nor divides by zero — it succeeds. -/
theorem C10_connectivity_safe (emb : List (α × List α)) (src tgt : List (α × α))
    (cs : List (α × List (α × α))) (h : connections emb src tgt = .ok cs) :
    (∀ p ∈ cs, ∃ e es dv, p.2 = e :: es ∧
      dictGet (source_degree src) e.1 = some dv ∧ 1 ≤ dv) ∧
    ∃ hist, connectivity_histogram emb src tgt = .ok hist := by
  have h0 := h
  unfold connections at h
  cases hI : interactions emb src tgt with
  | error e =>
    rw [hI] at h
    exact absurd h (by simp)
  | ok m =>
    rw [hI] at h
    injection h with h
    subst h
    have hkeys : ∀ q ∈ m,
        (∃ dv, dictGet (source_degree src) (q.1).1 = some dv ∧ 1 ≤ dv) ∧
        (∃ dv, dictGet (source_degree src) (q.1).2 = some dv ∧ 1 ≤ dv) := by
      intro q hq
      rcases interGo_mem emb (target_adj tgt) src [] m hI q hq with h' | ⟨hsrc, hne⟩
      · simp at h'
      · have hmem : ((q.1).1, (q.1).2) ∈ src := by
          rw [Prod.mk.eta]
          exact hsrc
        exact degreeGo_hit src [] (q.1).1 (q.1).2 hmem hne
    have hvals := connGo_inv
      (fun e => ∃ dv, dictGet (source_degree src) e.1 = some dv ∧ 1 ≤ dv) m []
      (fun q hq => hkeys q hq) (by intro p hp; simp at hp)
    have hgood : ∀ p ∈ connGo m [], ∃ e es dv, p.2 = e :: es ∧
        dictGet (source_degree src) e.1 = some dv ∧ 1 ≤ dv := by
      intro p hp
      obtain ⟨hne, hall⟩ := hvals p hp
      cases hp2 : p.2 with
      | nil => exact absurd hp2 hne
      | cons e es =>
        obtain ⟨dv, hdv, h1⟩ := hall e (by rw [hp2]; exact List.mem_cons_self e es)
        exact ⟨e, es, dv, rfl, hdv, h1⟩
    refine ⟨hgood, ?_⟩
    obtain ⟨hist, hh⟩ := connHistGo_ok (source_degree src) (connGo m []) [] hgood
    refine ⟨hist, ?_⟩
    unfold connectivity_histogram
    rw [h0]
    exact hh

/-- C6 (amended): when `connections` and `connectivity_histogram` both
succeed, the histogram counts, for each exact rational `r`, the
`connections` items whose value `len(set(edges))/source_degree[u]` — with
`(u,v)` the FIRST listed logical edge of the item and `len(set(edges))`
the number of DISTINCT direction-tagged logical edges recorded for the
qubit — equals `r`. -/
theorem C6_connectivity_histogram (emb : List (α × List α)) (src tgt : List (α × α))
    (cs : List (α × List (α × α))) (hist : List (ℚ × Nat))
    (hc : connections emb src tgt = .ok cs)
    (hh : connectivity_histogram emb src tgt = .ok hist) :
    ∀ r : ℚ, dictGetD hist r 0
      = cs.countP (fun p => connOf (source_degree src) p == some r) := by
  have hrun : connHistGo (source_degree src) cs [] = .ok hist := by
    unfold connectivity_histogram at hh
    rw [hc] at hh
    exact hh
  intro r
  have := connHistGo_count (source_degree src) cs [] hist hrun r
  simpa [dictGetD, dictGet] using this

end Metrics

/-! ### Concrete inputs used to evaluate the metrics

The embedding `{0: {0}, 1: {1, 2}}`, source graph with the single edge
`(0, 1)`, target graph with edges `(0, 1)` and `(0, 2)`: variable 0's
single qubit 0 interacts with both qubits of variable 1's chain. -/

/-- Embedding `{0: {0}, 1: {1, 2}}`. -/
def sampleEmb : List (Nat × List Nat) := [(0, [0]), (1, [1, 2])]

/-- Source edge list `[(0, 1)]`. -/
def sampleSrc : List (Nat × Nat) := [(0, 1)]

/-- Target edge list `[(0, 1), (0, 2)]`. -/
def sampleTgt : List (Nat × Nat) := [(0, 1), (0, 2)]

/-- The `connections` result on the sample inputs. -/
def sampleConn : List (Nat × List (Nat × Nat)) :=
  [(0, [(0, 1), (0, 1)]), (1, [(1, 0)]), (2, [(1, 0)])]

/-- C4 witness: the interactions theorem instantiated on the sample inputs
at source edge `(0,1)` and pair `(0,2)`. -/
theorem C4_witness :
    ((0, 2) ∈ [((0 : Nat), (1 : Nat)), (0, 2)] ↔
      (∃ cu, dictGet sampleEmb 0 = some cu ∧ 0 ∈ cu) ∧
      (∃ cv, dictGet sampleEmb 1 = some cv ∧ 2 ∈ cv) ∧
      (0 : Nat) ≠ 2 ∧
      (((0 : Nat), (2 : Nat)) ∈ sampleTgt ∨ ((2 : Nat), (0 : Nat)) ∈ sampleTgt)) :=
  ((C4_interactions sampleEmb sampleSrc sampleTgt [((0, 1), [(0, 1), (0, 2)])]
      (by decide)).2 0 1 [(0, 1), (0, 2)] (by decide)).2 0 2

/-- C10 witness: the safety theorem instantiated on the sample inputs shows
the connectivity histogram computation succeeds. -/
theorem C10_witness :
    (connectivity_histogram sampleEmb sampleSrc sampleTgt).isOk = true := by
  obtain ⟨hist, hh⟩ :=
    (C10_connectivity_safe sampleEmb sampleSrc sampleTgt sampleConn (by decide)).2
  rw [hh]
  rfl

unseal Rat.mul Rat.inv in
/-- C6 witness: the amended histogram theorem instantiated on the sample
inputs at ratio 1 (the computed histogram is `{1.0: 3}` and all three
qubits' items have value 1). -/
theorem C6_witness :
    dictGetD [((1 : ℚ), 3)] 1 0
      = sampleConn.countP (fun p => connOf (source_degree sampleSrc) p == some 1) :=
  C6_connectivity_histogram sampleEmb sampleSrc sampleTgt sampleConn [((1 : ℚ), 3)]
    (by decide) (by decide) 1

unseal Rat.mul Rat.inv in
/-- C6 counterexample: on the sample inputs, qubit 0 is the "from" side of
the two distinct physical edges `(0,1)` and `(0,2)` realizing logical edge
`(0,1)` (first conjunct), and the degree of variable 0 is 1 (second
conjunct), so the claim requires a histogram bucket at ratio 2/1 = 2; the
computed histogram is `{1.0: 3}` (third conjunct) and has no bucket at 2
(fourth conjunct): the histogram buckets the number of distinct logical
edges through a qubit, not the number of distinct physical edges. -/
theorem C6_counterexample :
    interactions sampleEmb sampleSrc sampleTgt = .ok [((0, 1), [(0, 1), (0, 2)])] ∧
    dictGet (source_degree sampleSrc) 0 = some 1 ∧
    connectivity_histogram sampleEmb sampleSrc sampleTgt = .ok [((1 : ℚ), 3)] ∧
    dictGet [((1 : ℚ), 3)] (2 : ℚ) = none := by decide

end Embedding

/-! ## The tiling module: `Tile` and `DWaveNetworkXTiling`

The coordinate converter (`embera.dwave_coordinates`) is external to the
sources; per the spec it is a pair of mutually inverse functions between a
qubit label and the canonical nice 5-tuple.  The resolved pair is passed to
each operation as `to_nice` / `from_nice` (for `labels == 'nice'` both are
the identity). -/

/-- The canonical nice coordinate `(t, i, j, u, k)`:
layer, row, column, shore, in-shore index. -/
abbrev Nice := Int × Int × Int × Int × Int

/-- The `Tile` class: its coordinate `index`, the physical `qubits` located
in it, the externally mutated set of logical variables `nodes`, and the 8
precomputed candidate neighbor coordinates. -/
structure Tile (Q V : Type) where
  index : List Int
  qubits : List Q
  nodes : Finset V
  neighbors : List (Int × Int × Int)

instance {Q V : Type} [DecidableEq Q] [DecidableEq V] : DecidableEq (Tile Q V) := fun a b => by
  obtain ⟨i1, q1, n1, g1⟩ := a
  obtain ⟨i2, q2, n2, g2⟩ := b
  by_cases h : i1 = i2 ∧ q1 = q2 ∧ n1 = n2 ∧ g1 = g2
  · exact isTrue (by rw [h.1, h.2.1, h.2.2.1, h.2.2.2])
  · exact isFalse fun hh => h (by cases hh; exact ⟨rfl, rfl, rfl, rfl⟩)

namespace Tile

/-- Constructor `Tile.__init__(tile, shape, qubits)`: unpack `t,i,j` from a 3-component
index, or `i,j` (with `t = 0`) from a 2-component one — any other length
fails tuple unpacking; `nodes` starts empty; the 8 neighbor candidates vary
only the row/column components.  (`shape` is accepted and unused, as in the
source.) -/
def init {Q V : Type} (tile : List Int) (shape : List Int) (qubits : List Q) :
    Option (Tile Q V) :=
  let tij : Option (Int × Int × Int) :=
    match tile with
    | [t, i, j] => some (t, i, j)
    | [i, j] => some (0, i, j)
    | _ => none
  tij.map fun (t, i, j) =>
    { index := tile
      qubits := qubits
      nodes := ∅
      neighbors := [(t, i - 1, j), (t, i + 1, j), (t, i, j - 1), (t, i, j + 1),
                    (t, i - 1, j - 1), (t, i - 1, j + 1), (t, i + 1, j + 1),
                    (t, i + 1, j - 1)] }

/-- Property `supply`: `len(self.qubits)`. -/
def supply {Q V : Type} (t : Tile Q V) : Nat := t.qubits.length

/-- Property `concentration`: `len(list(self.nodes)) / self.supply` when the supply
is nonzero, else 0. -/
def concentration {Q V : Type} [DecidableEq V] (t : Tile Q V) : ℚ :=
  if t.supply ≠ 0 then (t.nodes.card : ℚ) / (t.supply : ℚ) else 0

end Tile

/-- The metadata and element lists the `DWaveNetworkXTiling` constructor
reads off the hardware graph `Tg`. -/
structure GraphDesc (Q : Type) where
  family : String
  rows : Int
  columns : Int
  labels : String
  tile : Nat
  qubits : List Q
  couplers : List (Q × Q)

/-- The `DWaveNetworkXTiling` state: graph dimensions, the tile-coordinate
shape, the qubit and coupler lists, and the tile dict keyed by tile
coordinate.  The resolved converter pair is passed to each operation. -/
structure DWaveNetworkXTiling (Q V : Type) where
  m : Int
  n : Int
  shape : List Int
  qubits : List Q
  couplers : List (Q × Q)
  tiles : List (List Int × Tile Q V)

instance {Q V : Type} [DecidableEq Q] [DecidableEq V] :
    DecidableEq (DWaveNetworkXTiling Q V) := fun a b => by
  obtain ⟨m1, n1, s1, q1, c1, t1⟩ := a
  obtain ⟨m2, n2, s2, q2, c2, t2⟩ := b
  by_cases h : m1 = m2 ∧ n1 = n2 ∧ s1 = s2 ∧ q1 = q2 ∧ c1 = c2 ∧ t1 = t2
  · exact isTrue (by
      rw [h.1, h.2.1, h.2.2.1, h.2.2.2.1, h.2.2.2.2.1, h.2.2.2.2.2])
  · exact isFalse fun hh => h (by cases hh; exact ⟨rfl, rfl, rfl, rfl, rfl, rfl⟩)

namespace DWaveNetworkXTiling

variable {Q V : Type} [DecidableEq Q] [DecidableEq V]

/-- Method `get_tile(x)`: `t,i,j,u,k = self.to_nice(x); return (t,i,j)`. -/
def get_tile (to_nice : Q → Nice) (x : Q) : List Int :=
  let (t, i, j, _, _) := to_nice x
  [t, i, j]

/-- The tile-building loop of `__init__`: for each qubit, compute its tile
coordinate and append the qubit to that tile (creating the `Tile` on first
encounter). -/
def addQubits (shape : List Int) (to_nice : Q → Nice) :
    List Q → List (List Int × Tile Q V) → Option (List (List Int × Tile Q V))
  | [], tiles => some tiles
  | q :: qs, tiles =>
    let tile := get_tile to_nice q
    match dictGet tiles tile with
    | some tl => addQubits shape to_nice qs
        (dictInsert tiles tile { tl with qubits := tl.qubits ++ [q] })
    | none =>
      match Tile.init tile shape [q] with
      | some tl => addQubits shape to_nice qs (tiles ++ [(tile, tl)])
      | none => none

/-- Constructor `DWaveNetworkXTiling.__init__(Tg)`: read `rows`/`columns`, derive the
shape from the family — `(m, n)` for `'chimera'`, `(3, m, n)` for
`'pegasus'`, a `ValueError` for anything else — then build the tile dict
from the qubit list.  Converter resolution from `labels` is external; the
resolved pair is a parameter. -/
def init (g : GraphDesc Q) (to_nice : Q → Nice) (from_nice : Nice → Q) :
    Except Unit (DWaveNetworkXTiling Q V) :=
  let m := g.rows
  let n := g.columns
  if g.family = "chimera" then
    match addQubits [m, n] to_nice g.qubits [] with
    | some tiles => .ok { m := m, n := n, shape := [m, n], qubits := g.qubits,
                          couplers := g.couplers, tiles := tiles }
    | none => .error ()
  else if g.family = "pegasus" then
    match addQubits [3, m, n] to_nice g.qubits [] with
    | some tiles => .ok { m := m, n := n, shape := [3, m, n], qubits := g.qubits,
                          couplers := g.couplers, tiles := tiles }
    | none => .error ()
  else
    .error ()

/-- Method `set_tile(x, tile)`: left-pad the given tile coordinate with zeros to 3
components, keep shore and index, and convert back.  A padded coordinate
that is not 3 components long fails the conversion. -/
def set_tile (to_nice : Q → Nice) (from_nice : Nice → Q) (x : Q) (tile : List Int) :
    Option Q :=
  let (_, _, _, u, k) := to_nice x
  match List.replicate (3 - tile.length) 0 ++ tile with
  | [a, b, c] => some (from_nice (a, b, c, u, k))
  | _ => none

/-- Method `get_shore(x)`: the shore component of the nice coordinate. -/
def get_shore (to_nice : Q → Nice) (x : Q) : Int :=
  let (_, _, _, u, _) := to_nice x
  u

/-- Method `set_shore(x, u)`: replace the shore component, convert back. -/
def set_shore (to_nice : Q → Nice) (from_nice : Nice → Q) (x : Q) (u : Int) : Q :=
  let (t, i, j, _, k) := to_nice x
  from_nice (t, i, j, u, k)

/-- Method `get_k(x)`: the in-shore index component of the nice coordinate. -/
def get_k (to_nice : Q → Nice) (x : Q) : Int :=
  let (_, _, _, _, k) := to_nice x
  k

/-- Method `set_k(x, k)`: replace the in-shore index component, convert back. -/
def set_k (to_nice : Q → Nice) (from_nice : Nice → Q) (x : Q) (k : Int) : Q :=
  let (t, i, j, u, _) := to_nice x
  from_nice (t, i, j, u, k)

/-- Method `get_tile_neighbors(tile)`: the candidates obtained by varying exactly
one component of the given coordinate by ±1, filtered to those present as
keys of the tile dict.  (The Python code collects candidates in a `set`,
whose iteration order is unspecified; the result is meaningful as a set.) -/
def get_tile_neighbors (T : DWaveNetworkXTiling Q V) (tile : List Int) :
    List (List Int) :=
  ((tile.enum.flatMap fun p =>
      [tile.set p.1 (p.2 - 1), tile.set p.1 (p.2 + 1)]).dedup).filter
    fun c => T.tiles.any fun e => e.1 = c

end DWaveNetworkXTiling

/-- C7: for every qubit on which the resolved converters round-trip
(`from_nice (to_nice q) = q`), rewriting the tile with the qubit's own tile
coordinate, the shore with its own shore, or the index with its own index
returns the same qubit. -/
theorem C7_roundtrip {Q : Type} (to_nice : Q → Nice) (from_nice : Nice → Q) (q : Q)
    (hinv : from_nice (to_nice q) = q) :
    DWaveNetworkXTiling.set_tile to_nice from_nice q
        (DWaveNetworkXTiling.get_tile to_nice q) = some q ∧
    DWaveNetworkXTiling.set_shore to_nice from_nice q
        (DWaveNetworkXTiling.get_shore to_nice q) = q ∧
    DWaveNetworkXTiling.set_k to_nice from_nice q
        (DWaveNetworkXTiling.get_k to_nice q) = q := by
  rcases hq : to_nice q with ⟨t, i, j, u, k⟩
  refine ⟨?_, ?_, ?_⟩
  · simp only [DWaveNetworkXTiling.set_tile, DWaveNetworkXTiling.get_tile, hq]
    rw [show List.replicate (3 - [t, i, j].length) 0 ++ [t, i, j] = [t, i, j] from by
      simp]
    show some (from_nice (t, i, j, u, k)) = some q
    rw [← hq, hinv]
  · simp only [DWaveNetworkXTiling.set_shore, DWaveNetworkXTiling.get_shore, hq]
    rw [← hq, hinv]
  · simp only [DWaveNetworkXTiling.set_k, DWaveNetworkXTiling.get_k, hq]
    rw [← hq, hinv]

/-- C7 witness: the round-trip theorem applied to the identity converter
pair (the `'nice'` labelling) at a concrete qubit. -/
theorem C7_witness :
    DWaveNetworkXTiling.set_tile (Q := Nice) id id (0, 1, 1, 0, 2)
        (DWaveNetworkXTiling.get_tile id ((0, 1, 1, 0, 2) : Nice)) = some (0, 1, 1, 0, 2) ∧
    DWaveNetworkXTiling.set_shore (Q := Nice) id id (0, 1, 1, 0, 2)
        (DWaveNetworkXTiling.get_shore id ((0, 1, 1, 0, 2) : Nice)) = (0, 1, 1, 0, 2) ∧
    DWaveNetworkXTiling.set_k (Q := Nice) id id (0, 1, 1, 0, 2)
        (DWaveNetworkXTiling.get_k id ((0, 1, 1, 0, 2) : Nice)) = (0, 1, 1, 0, 2) :=
  C7_roundtrip id id (0, 1, 1, 0, 2) rfl

/-- C8: constructing a tiling from a hardware graph whose family is neither
`'chimera'` nor `'pegasus'` fails immediately with the `ValueError`, before
any tile is built, whatever the converters and the rest of the metadata. -/
theorem C8_invalid_family {Q V : Type} [DecidableEq Q] [DecidableEq V]
    (g : GraphDesc Q) (to_nice : Q → Nice) (from_nice : Nice → Q)
    (h1 : g.family ≠ "chimera") (h2 : g.family ≠ "pegasus") :
    DWaveNetworkXTiling.init (V := V) g to_nice from_nice = .error () := by
  unfold DWaveNetworkXTiling.init
  rw [if_neg h1, if_neg h2]

/-- A hardware graph description with an unsupported family value. -/
def sampleBadGraph : GraphDesc Nat :=
  { family := "kite", rows := 2, columns := 2, labels := "int", tile := 4,
    qubits := [], couplers := [] }

/-- C8 witness: the invalid-family theorem applied at a concrete graph. -/
theorem C8_witness :
    DWaveNetworkXTiling.init (V := Nat) sampleBadGraph
      (fun _ => ((0, 0, 0, 0, 0) : Nice)) (fun _ => 0) = .error () :=
  C8_invalid_family sampleBadGraph _ _ (by decide) (by decide)

/-- C9: a freshly constructed `Tile` has `concentration = 0`; any tile with
nonzero supply has `concentration = len(nodes) / supply`; a tile with zero
supply has `concentration = 0` rather than a division error. -/
theorem C9_concentration {Q V : Type} [DecidableEq V] :
    (∀ (tile shape : List Int) (qs : List Q) (t : Tile Q V),
      Tile.init tile shape qs = some t → t.concentration = 0) ∧
    (∀ t : Tile Q V,
      (t.supply ≠ 0 → t.concentration = (t.nodes.card : ℚ) / (t.supply : ℚ)) ∧
      (t.supply = 0 → t.concentration = 0)) := by
  constructor
  · intro tile shape qs t h
    unfold Tile.init at h
    rw [Option.map_eq_some'] at h
    obtain ⟨⟨a, b, c⟩, _, hf⟩ := h
    have hn : t.nodes = ∅ := by rw [← hf]
    unfold Tile.concentration
    rw [hn]
    simp
  · intro t
    constructor
    · intro h
      unfold Tile.concentration
      rw [if_pos h]
    · intro h
      unfold Tile.concentration
      rw [if_neg fun hh => hh h]

/-- A freshly constructed tile: `Tile([0,0], (2,2), [5])`. -/
def sampleFresh : Tile Nat Nat :=
  { index := [0, 0], qubits := [5], nodes := ∅,
    neighbors := [(0, -1, 0), (0, 1, 0), (0, 0, -1), (0, 0, 1),
                  (0, -1, -1), (0, -1, 1), (0, 1, 1), (0, 1, -1)] }

/-- A tile holding two qubits whose `nodes` set was mutated to hold one
logical variable. -/
def sampleBusy : Tile Nat Nat :=
  { index := [0, 0], qubits := [7, 8], nodes := {3},
    neighbors := [(0, -1, 0), (0, 1, 0), (0, 0, -1), (0, 0, 1),
                  (0, -1, -1), (0, -1, 1), (0, 1, 1), (0, 1, -1)] }

/-- C9 witness: the concentration theorem applied at a freshly constructed
tile and at a mutated one. -/
theorem C9_witness :
    sampleFresh.concentration = 0 ∧
    sampleBusy.concentration = (sampleBusy.nodes.card : ℚ) / (sampleBusy.supply : ℚ) :=
  ⟨C9_concentration.1 [0, 0] [2, 2] [5] sampleFresh (by decide),
   (C9_concentration.2 sampleBusy).1 (by decide)⟩

/-- All nice coordinates of a chimera graph with `m` rows, `n` columns and
shore capacity `c`: layer 0, every row, column, shore and index. -/
def chimeraNiceNodes (m n c : Nat) : List Nice :=
  (List.range m).flatMap fun i => (List.range n).flatMap fun j =>
    (List.range 2).flatMap fun u => (List.range c).map fun k =>
      (((0 : Int), (i : Int), (j : Int), (u : Int), (k : Int)) : Nice)

/-- The 2×2 chimera hardware graph with per-tile shore capacity 4 and nice
labels (the coupler list plays no part in tiling construction and is left
empty). -/
def sampleGrid22 : GraphDesc Nice :=
  { family := "chimera", rows := 2, columns := 2, labels := "nice", tile := 4,
    qubits := chimeraNiceNodes 2 2 4, couplers := [] }

/-- The tiling built from `sampleGrid22` with identity converters (the
`'nice'` labelling). -/
def sampleTiling : DWaveNetworkXTiling Nice Int :=
  (DWaveNetworkXTiling.init sampleGrid22 id id).toOption.getD
    { m := 0, n := 0, shape := [], qubits := [], couplers := [], tiles := [] }

/-- C1 counterexample: on the 2×2 chimera graph the construction succeeds
and produces the tile dict, but `(0,0)` is NOT one of its coordinate keys —
`get_tile` returns full 3-component `(t,i,j)` coordinates, so the keys are
`(0,i,j)` — and consequently `get_tile_neighbors((0,0))` returns the empty
list, not `{(0,1),(1,0)}`. -/
theorem C1_counterexample :
    DWaveNetworkXTiling.init sampleGrid22 id id = .ok sampleTiling ∧
    [0, 0] ∉ sampleTiling.tiles.map Prod.fst ∧
    DWaveNetworkXTiling.get_tile_neighbors sampleTiling [0, 0] = [] := by decide

/-- C1 (amended): the 2×2 chimera tiling has exactly 4 tiles, with
3-component coordinate keys `{(0,0,0),(0,0,1),(0,1,0),(0,1,1)}`, and
`get_tile_neighbors((0,0,0))` returns exactly `{(0,0,1),(0,1,0)}`. -/
theorem C1_amended :
    DWaveNetworkXTiling.init sampleGrid22 id id = .ok sampleTiling ∧
    sampleTiling.tiles.length = 4 ∧
    (sampleTiling.tiles.map Prod.fst).toFinset
      = ({[0, 0, 0], [0, 0, 1], [0, 1, 0], [0, 1, 1]} : Finset (List Int)) ∧
    (DWaveNetworkXTiling.get_tile_neighbors sampleTiling [0, 0, 0]).toFinset
      = ({[0, 0, 1], [0, 1, 0]} : Finset (List Int)) := by decide

end Embera
